import Mathlib

/-!
Verification development for the koa-isbot middleware (src/index.ts, src/cache.ts,
src/types.ts).  The functional core — the `BotDetectionCache` LRU/TTL cache and the
middleware returned by `koaIsBot` — is shallowly embedded here.

The JavaScript `Map` that backs the cache is embedded as an association list in
insertion order (head = oldest entry), with the exact ECMAScript semantics the code
relies on:
* `Map.prototype.set` on an existing key replaces the value but keeps the key's
  position in iteration order;
* `Map.prototype.set` on a fresh key appends at the end;
* `Map.prototype.delete` removes the key;
* `map.keys().next().value` is the first key in iteration order.

`Date.now()` is embedded as an explicit `now : Nat` argument to every operation that
reads the clock.  The external `isbot` library (the classifier) is embedded as an
opaque triple of functions, as the spec treats it as a black box.
-/

namespace KoaIsBot

/-- `BotDetectionResult` from src/types.ts: the classification published to
`ctx.state` and stored in the cache. -/
structure BotDetectionResult where
  isBot : Bool
  botName : Option String
  botPatterns : List String
  userAgent : String
deriving DecidableEq

/-- `CacheEntry` from src/types.ts: a stored result plus its insertion timestamp. -/
structure CacheEntry where
  result : BotDetectionResult
  timestamp : Nat
deriving DecidableEq

/-- The backing `Map<string, CacheEntry>` in iteration (insertion) order,
head = oldest. -/
abbrev CacheMap := List (String × CacheEntry)

/-- `map.has(k)` (used only to express the two branches of `map.set`). -/
def mapHasKey (m : CacheMap) (k : String) : Bool :=
  m.any (fun p => p.1 == k)

/-- `map.get(k)`: the value stored under `k`, if any. -/
def mapFind (m : CacheMap) (k : String) : Option CacheEntry :=
  (m.find? (fun p => p.1 == k)).map Prod.snd

/-- `map.delete(k)`: removes the entry keyed `k`, positions of the others
unchanged. -/
def mapDelete (m : CacheMap) (k : String) : CacheMap :=
  m.filter (fun p => !(p.1 == k))

/-- `map.set(k, v)`: replaces in place when `k` is present (ECMAScript keeps the
key's iteration-order position), appends at the end when it is fresh. -/
def mapSet (m : CacheMap) (k : String) (v : CacheEntry) : CacheMap :=
  if mapHasKey m k then m.map (fun p => if p.1 == k then (k, v) else p)
  else m ++ [(k, v)]

/-- `BotDetectionCache` from src/cache.ts (constructor defaults: `maxSize = 1000`,
`ttl = 3600000`). -/
structure BotDetectionCache where
  cache : CacheMap
  maxSize : Nat
  ttl : Nat
deriving DecidableEq

/-- `BotDetectionCache.get` from src/cache.ts.  Returns the looked-up result
together with the cache state afterwards (the mutation of `this.cache` made
explicit): a missing key returns `none`; an entry older than `ttl` is deleted and
`none` is returned; otherwise the entry is deleted and re-inserted (moved to the
end, i.e. most-recently-used) and its result returned. -/
def BotDetectionCache.get (c : BotDetectionCache) (now : Nat) (userAgent : String) :
    Option BotDetectionResult × BotDetectionCache :=
  match mapFind c.cache userAgent with
  | none => (none, c)
  | some entry =>
    if now - entry.timestamp > c.ttl then
      (none, { c with cache := mapDelete c.cache userAgent })
    else
      (some entry.result,
       { c with cache := mapSet (mapDelete c.cache userAgent) userAgent entry })

/-- The eviction block at the top of `BotDetectionCache.set` (src/cache.ts):
`if (this.cache.size >= this.maxSize) { const firstKey = this.cache.keys().next().value;
if (firstKey !== undefined) this.cache.delete(firstKey); }`. -/
def evictIfFull (c : BotDetectionCache) : CacheMap :=
  if c.cache.length ≥ c.maxSize then
    match c.cache.head? with
    | some first => mapDelete c.cache first.1
    | none => c.cache
  else c.cache

/-- `BotDetectionCache.set` from src/cache.ts.  If `size >= maxSize` the first key
in iteration order is deleted (when one exists) — note the code performs this check
whether or not `userAgent` is already present — then the entry is stored with a
fresh timestamp via `map.set`. -/
def BotDetectionCache.set (c : BotDetectionCache) (now : Nat) (userAgent : String)
    (result : BotDetectionResult) : BotDetectionCache :=
  { c with cache := mapSet (evictIfFull c) userAgent ⟨result, now⟩ }

/-- `BotDetectionCache.clear` from src/cache.ts. -/
def BotDetectionCache.clear (c : BotDetectionCache) : BotDetectionCache :=
  { c with cache := [] }

/-- `BotDetectionCache.size` from src/cache.ts. -/
def BotDetectionCache.size (c : BotDetectionCache) : Nat :=
  c.cache.length

/-- `BotDetectionCache.cleanup` from src/cache.ts: removes every entry whose age
exceeds `ttl`. -/
def BotDetectionCache.cleanup (c : BotDetectionCache) (now : Nat) : BotDetectionCache :=
  { c with cache := c.cache.filter (fun p => !(decide (now - p.2.timestamp > c.ttl))) }

/-- The external `isbot` library capabilities the middleware uses (`customIsBot`,
`customIsbotMatch`, `customIsbotMatches` in src/index.ts), treated as an opaque
black box per the spec. -/
structure Classifier where
  isBotF : String → Bool
  matchF : String → Option String
  matchesF : String → List String

/-- `String(userAgent || '').slice(0, 2048)` from `detectBot` in src/index.ts: the
first `n` characters of the string. -/
def sliceChars (s : String) (n : Nat) : String :=
  String.mk (s.data.take n)

/-- `detectBot` from src/index.ts: truncate to 2048 characters, then ask the
classifier. -/
def detectBot (clf : Classifier) (userAgent : String) : BotDetectionResult :=
  let sanitizedUA := sliceChars userAgent 2048
  { isBot := clf.isBotF sanitizedUA
    botName := clf.matchF sanitizedUA
    botPatterns := clf.matchesF sanitizedUA
    userAgent := sanitizedUA }

/-- The observable side effects of one middleware invocation, in order: the
awaited `onDetection` / `onBotDetected` callbacks and the `next()` handoff. -/
inductive Event where
  | onDetection : BotDetectionResult → Event
  | onBotDetected : BotDetectionResult → Event
  | next : Event
deriving DecidableEq

/-- The middleware configuration after merging with `DEFAULT_OPTIONS`
(src/index.ts): the state key, whether the cache was constructed, and which of the
two optional callbacks were supplied. -/
structure MwConfig where
  stateKey : String
  cacheEnabled : Bool
  hasOnDetection : Bool
  hasOnBotDetected : Bool
deriving DecidableEq

/-- The callback events one request emits before `next()`, in the code's order:
`options.onDetection` if configured, then `options.onBotDetected` if the result is
a bot and the callback is configured. -/
def callbackEvents (cfg : MwConfig) (r : BotDetectionResult) : List Event :=
  (if cfg.hasOnDetection then [Event.onDetection r] else []) ++
    (if r.isBot && cfg.hasOnBotDetected then [Event.onBotDetected r] else [])

/-- The result the middleware publishes when the extracted user agent is falsy
(empty string or absent header). -/
def emptyUAResult : BotDetectionResult :=
  { isBot := false, botName := none, botPatterns := [], userAgent := "" }

/-- Everything one middleware invocation does, made explicit: the cache state
afterwards, the result written to `ctx.state[stateKey]`, the ordered list of
awaited events, and counters for classifier calls and cache lookups/insertions. -/
structure MwOutcome where
  cache : BotDetectionCache
  published : BotDetectionResult
  events : List Event
  classifierCalls : Nat
  cacheGets : Nat
  cachePuts : Nat
deriving DecidableEq

/-- The middleware returned by `koaIsBot` (src/index.ts), for one request.  The
extracted user agent is passed as a string, with `""` standing for both the empty
and the absent header (the only falsy values `config.getUserAgent` can produce).
Note the code passes the raw, untruncated `userAgent` to both `cache.get` and
`cache.set`; truncation happens only inside `detectBot`. -/
def middleware (cfg : MwConfig) (clf : Classifier) (c : BotDetectionCache) (now : Nat)
    (userAgent : String) : MwOutcome :=
  if userAgent = "" then
    { cache := c, published := emptyUAResult, events := [Event.next]
      classifierCalls := 0, cacheGets := 0, cachePuts := 0 }
  else if cfg.cacheEnabled then
    match BotDetectionCache.get c now userAgent with
    | (some r, c1) =>
      { cache := c1, published := r, events := callbackEvents cfg r ++ [Event.next]
        classifierCalls := 0, cacheGets := 1, cachePuts := 0 }
    | (none, c1) =>
      let r := detectBot clf userAgent
      { cache := c1.set now userAgent r, published := r
        events := callbackEvents cfg r ++ [Event.next]
        classifierCalls := 1, cacheGets := 1, cachePuts := 1 }
  else
    let r := detectBot clf userAgent
    { cache := c, published := r, events := callbackEvents cfg r ++ [Event.next]
      classifierCalls := 1, cacheGets := 0, cachePuts := 0 }

/-- A sequence of requests `(now, userAgent)` through one middleware instance; the
list of results published per request. -/
def runRequests (cfg : MwConfig) (clf : Classifier) :
    BotDetectionCache → List (Nat × String) → List BotDetectionResult
  | _, [] => []
  | c, q :: rest =>
    let o := middleware cfg clf c q.1 q.2
    o.published :: runRequests cfg clf o.cache rest

/-- A sequence of `cache.set` calls (all at time `now`). -/
def insertSeq (now : Nat) (rs : List (String × BotDetectionResult))
    (c : BotDetectionCache) : BotDetectionCache :=
  rs.foldl (fun acc kr => acc.set now kr.1 kr.2) c

/-- The cache keys are pairwise distinct — an invariant of a real `Map`, and of
every cache state this development constructs. -/
def KeysNodup (c : BotDetectionCache) : Prop :=
  (c.cache.map Prod.fst).Nodup

/-- Every cached result is the classification of its own key (holds inductively
from the empty cache, since only `detectBot` output is ever stored). -/
def CacheFaithful (clf : Classifier) (c : BotDetectionCache) : Prop :=
  ∀ p ∈ c.cache, p.2.result = detectBot clf p.1

/-- The classifier triple is coherent: the boolean agrees with the match list, and
the primary match is the first of all matches (the spec's contract for the
external library). -/
def Coherent (clf : Classifier) : Prop :=
  ∀ s, (clf.isBotF s = true ↔ clf.matchesF s ≠ []) ∧ clf.matchF s = (clf.matchesF s).head?

/-- The spec's result invariant: `isBot` iff some pattern matched, `botName`
present iff `isBot`, and `botName` is the first element of `botPatterns`. -/
def ResultInv (r : BotDetectionResult) : Prop :=
  (r.isBot = true ↔ r.botPatterns ≠ []) ∧ (r.botName ≠ none ↔ r.isBot = true) ∧
    r.botName = r.botPatterns.head?

/-! ### Concrete sample data for evaluating the embedding on closed inputs -/

/-- A sample classification result used to build concrete cache states. -/
def sampleResult : BotDetectionResult :=
  { isBot := true, botName := some "googlebot", botPatterns := ["googlebot"],
    userAgent := "googlebot" }

/-- A classifier that never matches anything; trivially coherent. -/
def trivialClf : Classifier :=
  { isBotF := fun _ => false, matchF := fun _ => none, matchesF := fun _ => [] }

/-- A configuration with the cache enabled and both callbacks supplied. -/
def sampleCfg : MwConfig :=
  { stateKey := "isBot", cacheEnabled := true, hasOnDetection := true,
    hasOnBotDetected := true }

/-- A configuration with the cache disabled. -/
def sampleCfgNoCache : MwConfig :=
  { stateKey := "isBot", cacheEnabled := false, hasOnDetection := true,
    hasOnBotDetected := true }

/-- A one-entry cache (capacity 10, TTL 5) whose entry was inserted at time 0. -/
def expiredCache : BotDetectionCache :=
  { cache := [("k", ⟨sampleResult, 0⟩)], maxSize := 10, ttl := 5 }

/-- A user agent of 2049 identical characters — one more than the 2048-character
truncation bound. -/
def longUA : String :=
  String.mk (List.replicate 2049 'a')

/-- A capacity-2 cache at capacity, entries inserted at time 0 in order k1, k2. -/
def fullTwoCache : BotDetectionCache :=
  { cache := [("k1", ⟨sampleResult, 0⟩), ("k2", ⟨sampleResult, 0⟩)],
    maxSize := 2, ttl := 1000 }

/-- A capacity-1 cache at capacity holding only the key `"k"`. -/
def oneCache : BotDetectionCache :=
  { cache := [("k", ⟨sampleResult, 0⟩)], maxSize := 1, ttl := 1000 }

/-- A capacity-2 cache below capacity holding only the key `"k1"`. -/
def belowCapCache : BotDetectionCache :=
  { cache := [("k1", ⟨sampleResult, 0⟩)], maxSize := 2, ttl := 1000 }

/-! ### Helper lemmas about the embedded `Map` operations -/

theorem mapHasKey_nil {k : String} : mapHasKey [] k = false := rfl

theorem mapHasKey_eq_false_iff {m : CacheMap} {k : String} :
    mapHasKey m k = false ↔ ∀ p ∈ m, p.1 ≠ k := by
  simp [mapHasKey]

theorem mapHasKey_eq_true_iff {m : CacheMap} {k : String} :
    mapHasKey m k = true ↔ k ∈ m.map Prod.fst := by
  simp [mapHasKey, List.any_eq_true, List.mem_map]

theorem mapFind_eq_none_of_not_has {m : CacheMap} {k : String}
    (h : mapHasKey m k = false) : mapFind m k = none := by
  have h' := mapHasKey_eq_false_iff.mp h
  simp only [mapFind, Option.map_eq_none']
  rw [List.find?_eq_none]
  intro p hp
  simpa using h' p hp

theorem mapFind_mem {m : CacheMap} {k : String} {e : CacheEntry}
    (h : mapFind m k = some e) : (k, e) ∈ m := by
  simp only [mapFind, Option.map_eq_some'] at h
  obtain ⟨p, hp, rfl⟩ := h
  have hmem := List.mem_of_find?_eq_some hp
  have hpred := List.find?_some hp
  have hk : p.1 = k := by simpa using hpred
  cases p with
  | mk a b => cases hk; exact hmem

theorem mem_mapDelete {m : CacheMap} {k : String} {p : String × CacheEntry}
    (h : p ∈ mapDelete m k) : p ∈ m ∧ p.1 ≠ k := by
  simpa [mapDelete, List.mem_filter] using h

theorem mapDelete_eq_self_of_not_has {m : CacheMap} {k : String}
    (h : mapHasKey m k = false) : mapDelete m k = m := by
  have h' := mapHasKey_eq_false_iff.mp h
  apply List.filter_eq_self.mpr
  intro p hp
  simpa using h' p hp

theorem mapHasKey_mapDelete_self {m : CacheMap} {k : String} :
    mapHasKey (mapDelete m k) k = false := by
  rw [mapHasKey_eq_false_iff]
  intro p hp
  exact (mem_mapDelete hp).2

theorem mapSet_of_not_has {m : CacheMap} {k : String} {v : CacheEntry}
    (h : mapHasKey m k = false) : mapSet m k v = m ++ [(k, v)] := by
  simp [mapSet, h]

theorem mem_mapSet {m : CacheMap} {k : String} {v : CacheEntry} {p : String × CacheEntry}
    (h : p ∈ mapSet m k v) : p ∈ m ∨ p = (k, v) := by
  unfold mapSet at h
  split at h
  · obtain ⟨q, hq, hspec⟩ := List.mem_map.mp h
    by_cases hk : q.1 = k
    · right; rw [if_pos (by simp [hk])] at hspec; exact hspec.symm
    · left; rw [if_neg (by simp [hk])] at hspec; exact hspec ▸ hq
  · rcases List.mem_append.mp h with h1 | h1
    · exact Or.inl h1
    · right; simpa using h1

theorem keys_mapSet_of_has {m : CacheMap} {k : String} {v : CacheEntry}
    (h : mapHasKey m k = true) : (mapSet m k v).map Prod.fst = m.map Prod.fst := by
  simp only [mapSet, h, if_true, List.map_map]
  apply List.map_congr_left
  intro p _
  by_cases hk : p.1 = k <;> simp [hk]

theorem length_mapSet_of_has {m : CacheMap} {k : String} {v : CacheEntry}
    (h : mapHasKey m k = true) : (mapSet m k v).length = m.length := by
  simp [mapSet, h]

theorem length_mapSet_of_not_has {m : CacheMap} {k : String} {v : CacheEntry}
    (h : mapHasKey m k = false) : (mapSet m k v).length = m.length + 1 := by
  simp [mapSet_of_not_has h]

theorem mapFind_append_right_of_not_has {l m : CacheMap} {k : String}
    (h : mapHasKey l k = false) : mapFind (l ++ m) k = mapFind m k := by
  have h' := mapHasKey_eq_false_iff.mp h
  simp only [mapFind, List.find?_append]
  have : l.find? (fun p => p.1 == k) = none := by
    rw [List.find?_eq_none]
    intro p hp
    simpa using h' p hp
  rw [this]
  rfl

theorem mapFind_singleton_self {k : String} {v : CacheEntry} :
    mapFind [(k, v)] k = some v := by
  simp [mapFind, List.find?]

theorem mapFind_cons_of_eq {p : String × CacheEntry} {t : CacheMap} {k : String}
    (h : p.1 = k) : mapFind (p :: t) k = some p.2 := by
  unfold mapFind
  rw [List.find?_cons_of_pos _ (by simp [h])]
  rfl

theorem mapFind_cons_of_ne {p : String × CacheEntry} {t : CacheMap} {k : String}
    (h : p.1 ≠ k) : mapFind (p :: t) k = mapFind t k := by
  unfold mapFind
  rw [List.find?_cons_of_neg _ (by simp [h])]

theorem mapFind_repl_self {m : CacheMap} {k : String} {v : CacheEntry}
    (h : mapHasKey m k = true) :
    mapFind (m.map (fun p => if p.1 == k then (k, v) else p)) k = some v := by
  induction m with
  | nil => simp [mapHasKey] at h
  | cons p t ih =>
    by_cases hk : p.1 = k
    · rw [List.map_cons, if_pos (by simp [hk])]
      exact mapFind_cons_of_eq rfl
    · rw [List.map_cons, if_neg (by simp [hk])]
      rw [mapFind_cons_of_ne hk]
      apply ih
      have hpk : (p.1 == k) = false := by simp [hk]
      simpa [mapHasKey, List.any_cons, hpk] using h

theorem mapFind_mapSet_self {m : CacheMap} {k : String} {v : CacheEntry} :
    mapFind (mapSet m k v) k = some v := by
  unfold mapSet
  split
  case isTrue h => exact mapFind_repl_self h
  case isFalse h =>
    rw [mapFind_append_right_of_not_has (Bool.eq_false_iff.mpr h)]
    exact mapFind_singleton_self

/-! ### Helper lemmas about the cache operations -/

theorem mapDelete_cons_head {hd : String × CacheEntry} {tl : CacheMap}
    (h : hd.1 ∉ tl.map Prod.fst) : mapDelete (hd :: tl) hd.1 = tl := by
  have h2 : ∀ p ∈ tl, p.1 ≠ hd.1 := by
    intro p hp hc
    exact h (hc ▸ List.mem_map_of_mem Prod.fst hp)
  unfold mapDelete
  rw [List.filter_cons]
  simp only [beq_self_eq_true, Bool.not_true, Bool.false_eq_true, if_false]
  exact List.filter_eq_self.mpr fun p hp => by simp [h2 p hp]

theorem evictIfFull_at_capacity {hd : String × CacheEntry} {tl : CacheMap}
    {ms ttl : Nat} (h : ms ≤ tl.length + 1) :
    evictIfFull ⟨hd :: tl, ms, ttl⟩ = mapDelete (hd :: tl) hd.1 := by
  unfold evictIfFull
  rw [if_pos (by simpa using h)]
  rfl

theorem evictIfFull_below {c : BotDetectionCache} (h : c.cache.length < c.maxSize) :
    evictIfFull c = c.cache := by
  unfold evictIfFull
  rw [if_neg (by omega)]

theorem evictIfFull_nil {ms ttl : Nat} : evictIfFull ⟨[], ms, ttl⟩ = [] := by
  unfold evictIfFull
  split <;> rfl

theorem set_cache_eq {c : BotDetectionCache} {now : Nat} {k : String}
    {r : BotDetectionResult} :
    (c.set now k r).cache = mapSet (evictIfFull c) k ⟨r, now⟩ := rfl

theorem set_maxSize {c : BotDetectionCache} {now : Nat} {k : String}
    {r : BotDetectionResult} : (c.set now k r).maxSize = c.maxSize := rfl

theorem set_ttl {c : BotDetectionCache} {now : Nat} {k : String}
    {r : BotDetectionResult} : (c.set now k r).ttl = c.ttl := rfl

/-- `set` on a cache at (or beyond) capacity with a fresh key: the single oldest
entry is evicted and the new entry appended at the most-recently-used end. -/
theorem set_cache_at_capacity_fresh {hd : String × CacheEntry} {tl : CacheMap}
    {ms ttl now : Nat} {k : String} {r : BotDetectionResult}
    (hlen : ms ≤ tl.length + 1) (hnotmem : hd.1 ∉ tl.map Prod.fst)
    (hk : mapHasKey (hd :: tl) k = false) :
    (BotDetectionCache.set ⟨hd :: tl, ms, ttl⟩ now k r).cache = tl ++ [(k, ⟨r, now⟩)] := by
  rw [set_cache_eq, evictIfFull_at_capacity hlen, mapDelete_cons_head hnotmem]
  have hktl : mapHasKey tl k = false := by
    rw [mapHasKey_eq_false_iff] at hk ⊢
    exact fun p hp => hk p (List.mem_cons_of_mem hd hp)
  rw [mapSet_of_not_has hktl]

/-- `set` below capacity with a fresh key: the new entry is appended, nothing is
evicted. -/
theorem set_cache_below_capacity_fresh {c : BotDetectionCache} {now : Nat} {k : String}
    {r : BotDetectionResult} (hlen : c.cache.length < c.maxSize)
    (hk : mapHasKey c.cache k = false) :
    (c.set now k r).cache = c.cache ++ [(k, ⟨r, now⟩)] := by
  rw [set_cache_eq, evictIfFull_below hlen, mapSet_of_not_has hk]

theorem get_of_find_none {c : BotDetectionCache} {t : Nat} {u : String}
    (h : mapFind c.cache u = none) : c.get t u = (none, c) := by
  simp only [BotDetectionCache.get, h]

theorem get_of_expired {c : BotDetectionCache} {t : Nat} {u : String} {e : CacheEntry}
    (h : mapFind c.cache u = some e) (hex : c.ttl < t - e.timestamp) :
    c.get t u = (none, { c with cache := mapDelete c.cache u }) := by
  simp only [BotDetectionCache.get, h]
  rw [if_pos hex]

/-- A successful `get` promotes the entry to the most-recently-used end, keeping
its stored timestamp. -/
theorem get_of_fresh {c : BotDetectionCache} {t : Nat} {u : String} {e : CacheEntry}
    (h : mapFind c.cache u = some e) (hfr : t - e.timestamp ≤ c.ttl) :
    c.get t u = (some e.result, { c with cache := mapDelete c.cache u ++ [(u, e)] }) := by
  simp only [BotDetectionCache.get, h]
  rw [if_neg (by omega), mapSet_of_not_has mapHasKey_mapDelete_self]

/-! ### Helper lemmas about the middleware -/

theorem middleware_empty (cfg : MwConfig) (clf : Classifier) (c : BotDetectionCache)
    (now : Nat) :
    middleware cfg clf c now "" = ⟨c, emptyUAResult, [Event.next], 0, 0, 0⟩ := rfl

theorem middleware_hit {cfg : MwConfig} {clf : Classifier} {c c1 : BotDetectionCache}
    {now : Nat} {ua : String} {r : BotDetectionResult}
    (hen : cfg.cacheEnabled = true) (hua : ua ≠ "")
    (hget : BotDetectionCache.get c now ua = (some r, c1)) :
    middleware cfg clf c now ua =
      ⟨c1, r, callbackEvents cfg r ++ [Event.next], 0, 1, 0⟩ := by
  unfold middleware
  rw [if_neg hua, if_pos hen, hget]

theorem middleware_miss {cfg : MwConfig} {clf : Classifier} {c c1 : BotDetectionCache}
    {now : Nat} {ua : String}
    (hen : cfg.cacheEnabled = true) (hua : ua ≠ "")
    (hget : BotDetectionCache.get c now ua = (none, c1)) :
    middleware cfg clf c now ua =
      ⟨c1.set now ua (detectBot clf ua), detectBot clf ua,
       callbackEvents cfg (detectBot clf ua) ++ [Event.next], 1, 1, 1⟩ := by
  unfold middleware
  rw [if_neg hua, if_pos hen, hget]

theorem middleware_nocache {cfg : MwConfig} {clf : Classifier} {c : BotDetectionCache}
    {now : Nat} {ua : String}
    (hen : cfg.cacheEnabled = false) (hua : ua ≠ "") :
    middleware cfg clf c now ua =
      ⟨c, detectBot clf ua, callbackEvents cfg (detectBot clf ua) ++ [Event.next],
       1, 0, 0⟩ := by
  unfold middleware
  rw [if_neg hua, if_neg (by simp [hen])]

theorem mem_evictIfFull {c : BotDetectionCache} {p : String × CacheEntry}
    (h : p ∈ evictIfFull c) : p ∈ c.cache := by
  unfold evictIfFull at h
  split at h
  · split at h
    · exact (mem_mapDelete h).1
    · exact h
  · exact h

theorem cacheFaithful_nil {clf : Classifier} {ms ttl : Nat} :
    CacheFaithful clf ⟨[], ms, ttl⟩ := by
  intro p hp
  simp at hp

theorem cacheFaithful_get {clf : Classifier} {c : BotDetectionCache} {t : Nat}
    {u : String} (h : CacheFaithful clf c) : CacheFaithful clf (c.get t u).2 := by
  cases hf : mapFind c.cache u with
  | none => rw [get_of_find_none hf]; exact h
  | some e =>
    by_cases hex : c.ttl < t - e.timestamp
    · rw [get_of_expired hf hex]
      intro p hp
      exact h p (mem_mapDelete hp).1
    · rw [get_of_fresh hf (by omega)]
      intro p hp
      rcases List.mem_append.mp hp with h1 | h1
      · exact h p (mem_mapDelete h1).1
      · have hpe : p = (u, e) := by simpa using h1
        subst hpe
        exact h _ (mapFind_mem hf)

theorem cacheFaithful_hit {clf : Classifier} {c c1 : BotDetectionCache} {now : Nat}
    {ua : String} {r : BotDetectionResult} (h : CacheFaithful clf c)
    (hget : c.get now ua = (some r, c1)) : r = detectBot clf ua := by
  cases hf : mapFind c.cache ua with
  | none => rw [get_of_find_none hf] at hget; simp at hget
  | some e =>
    by_cases hex : c.ttl < now - e.timestamp
    · rw [get_of_expired hf hex] at hget; simp at hget
    · rw [get_of_fresh hf (by omega)] at hget
      have h1 : e.result = r := by
        have := congrArg Prod.fst hget
        simpa using this
      rw [← h1]
      exact h _ (mapFind_mem hf)

theorem cacheFaithful_set {clf : Classifier} {c : BotDetectionCache} {now : Nat}
    {ua : String} (h : CacheFaithful clf c) :
    CacheFaithful clf (c.set now ua (detectBot clf ua)) := by
  intro p hp
  rw [set_cache_eq] at hp
  rcases mem_mapSet hp with h1 | h1
  · exact h p (mem_evictIfFull h1)
  · rw [h1]

/-- One middleware step publishes exactly the specification result (empty result on
the fast path, the classification of the raw user agent otherwise), and keeps the
cache faithful. -/
theorem middleware_published_eq {f : MwConfig} {clf : Classifier}
    {c : BotDetectionCache} {t : Nat} {u : String} (h : CacheFaithful clf c) :
    (middleware f clf c t u).published
        = (if u = "" then emptyUAResult else detectBot clf u)
      ∧ CacheFaithful clf (middleware f clf c t u).cache := by
  by_cases hua : u = ""
  · subst hua
    rw [middleware_empty]
    exact ⟨by simp, h⟩
  · by_cases hen : f.cacheEnabled = true
    · rcases hget : BotDetectionCache.get c t u with ⟨o, c1⟩
      cases o with
      | some r =>
        rw [middleware_hit hen hua hget]
        refine ⟨?_, ?_⟩
        · rw [if_neg hua]
          exact cacheFaithful_hit h hget
        · have hf := cacheFaithful_get (t := t) (u := u) h
          rw [hget] at hf
          exact hf
      | none =>
        rw [middleware_miss hen hua hget]
        refine ⟨by rw [if_neg hua], ?_⟩
        have hf := cacheFaithful_get (t := t) (u := u) h
        rw [hget] at hf
        exact cacheFaithful_set hf
    · rw [middleware_nocache (Bool.not_eq_true _ |>.mp hen) hua]
      exact ⟨by rw [if_neg hua], h⟩

/-- Whole-run version: from a faithful cache, the published results are exactly
the per-request specification, independent of configuration (in particular of
whether the cache is enabled at all). -/
theorem runRequests_eq_of_faithful {cfg : MwConfig} {clf : Classifier} :
    ∀ (reqs : List (Nat × String)) (c : BotDetectionCache), CacheFaithful clf c →
      runRequests cfg clf c reqs
        = reqs.map (fun q => if q.2 = "" then emptyUAResult else detectBot clf q.2) := by
  intro reqs
  induction reqs with
  | nil => intro c _; rfl
  | cons q rest ih =>
    intro c h
    obtain ⟨hpub, hfaith⟩ :=
      middleware_published_eq (f := cfg) (t := q.1) (u := q.2) h
    simp only [runRequests, List.map_cons]
    rw [hpub]
    exact congrArg (List.cons _) (ih _ hfaith)

theorem mem_get_snd {c : BotDetectionCache} {now : Nat} {ua : String}
    {p : String × CacheEntry} (hp : p ∈ (c.get now ua).2.cache) : p ∈ c.cache := by
  cases hf : mapFind c.cache ua with
  | none => rw [get_of_find_none hf] at hp; exact hp
  | some e =>
    by_cases hex : c.ttl < now - e.timestamp
    · rw [get_of_expired hf hex] at hp
      exact (mem_mapDelete hp).1
    · rw [get_of_fresh hf (by omega)] at hp
      rcases List.mem_append.mp hp with h1 | h1
      · exact (mem_mapDelete h1).1
      · have hpe : p = (ua, e) := by simpa using h1
        subst hpe
        exact mapFind_mem hf

/-- Full decomposition of a successful `get`: the entry was present and fresh, its
result is returned, and the entry is promoted to the most-recently-used end. -/
theorem get_hit_decomp {c c1 : BotDetectionCache} {now : Nat} {ua : String}
    {r : BotDetectionResult} (hget : c.get now ua = (some r, c1)) :
    ∃ e, mapFind c.cache ua = some e ∧ now - e.timestamp ≤ c.ttl ∧ r = e.result
      ∧ c1 = { c with cache := mapDelete c.cache ua ++ [(ua, e)] } := by
  cases hf : mapFind c.cache ua with
  | none => rw [get_of_find_none hf] at hget; simp at hget
  | some e =>
    by_cases hex : c.ttl < now - e.timestamp
    · rw [get_of_expired hf hex] at hget; simp at hget
    · rw [get_of_fresh hf (by omega)] at hget
      simp only [Prod.mk.injEq, Option.some.injEq] at hget
      exact ⟨e, rfl, by omega, hget.1.symm, hget.2.symm⟩

theorem emptyUAResult_inv : ResultInv emptyUAResult := by
  simp [ResultInv, emptyUAResult]

theorem detectBot_inv {clf : Classifier} (h : Coherent clf) (ua : String) :
    ResultInv (detectBot clf ua) := by
  obtain ⟨h1, h2⟩ := h (sliceChars ua 2048)
  simp only [ResultInv, detectBot]
  refine ⟨h1, ?_, h2⟩
  rw [h2]
  cases hm : clf.matchesF (sliceChars ua 2048) with
  | nil =>
    rw [hm] at h1
    simp only [List.head?_nil]
    constructor
    · intro hc; exact absurd rfl hc
    · intro hc; exact absurd rfl (h1.mp hc)
  | cons a t =>
    rw [hm] at h1
    simp only [List.head?_cons]
    constructor
    · intro _; exact h1.mpr (by simp)
    · intro _; simp

/-! ### Claim C4 -/

/-- C4: for every request, the middleware's event sequence is exactly the
configured callbacks (in the fixed order `onDetection` then `onBotDetected`, the
latter iff the result is a bot) followed by a single `next`; `next` never occurs
among the callbacks, occurs exactly once, and is last — so the handoff happens
exactly once, after all callbacks complete, including on the empty-input fast
path. -/
theorem c4_next_exactly_once (cfg : MwConfig) (clf : Classifier) (c : BotDetectionCache)
    (now : Nat) (ua : String) :
    (middleware cfg clf c now ua).events
        = (if ua = "" then []
            else callbackEvents cfg (middleware cfg clf c now ua).published)
          ++ [Event.next]
      ∧ Event.next ∉ callbackEvents cfg (middleware cfg clf c now ua).published
      ∧ (middleware cfg clf c now ua).events.getLast? = some Event.next := by
  have hnotin : ∀ r, Event.next ∉ callbackEvents cfg r := by
    intro r hmem
    rcases List.mem_append.mp hmem with h1 | h1
    · split at h1 <;> simp at h1
    · split at h1 <;> simp at h1
  have hev : (middleware cfg clf c now ua).events
      = (if ua = "" then []
          else callbackEvents cfg (middleware cfg clf c now ua).published)
        ++ [Event.next] := by
    by_cases hua : ua = ""
    · subst hua
      rw [middleware_empty]
      simp
    · rw [if_neg hua]
      by_cases hen : cfg.cacheEnabled = true
      · rcases hget : BotDetectionCache.get c now ua with ⟨o, c1⟩
        cases o with
        | some r => rw [middleware_hit hen hua hget]
        | none => rw [middleware_miss hen hua hget]
      · rw [middleware_nocache (Bool.not_eq_true _ |>.mp hen) hua]
  exact ⟨hev, hnotin _, by rw [hev, List.getLast?_concat]⟩

/-! ### Claim C6 -/

/-- C6: for every request whose extracted user agent is empty or absent (both
reach the middleware as `""`, the only falsy extraction results), exactly the
result `{isBot: false, botName: null, botPatterns: [], userAgent: ""}` is
published, the cache is untouched (no lookup, no insertion, state unchanged), no
callback runs, and control proceeds to the next stage. -/
theorem c6_empty_fast_path (cfg : MwConfig) (clf : Classifier) (c : BotDetectionCache)
    (now : Nat) :
    middleware cfg clf c now "" =
      ⟨c, ⟨false, none, [], ""⟩, [Event.next], 0, 0, 0⟩ := rfl

/-! ### Claim C8 -/

/-- C8: lazy TTL expiry in `get`.  An entry whose age strictly exceeds the TTL is
deleted and absent is returned (and the key is no longer present afterwards), even
though no sweep has run; an entry within the TTL returns the stored result. -/
theorem c8_ttl_expiry :
    (∀ (c : BotDetectionCache) (now : Nat) (ua : String) (e : CacheEntry),
        mapFind c.cache ua = some e → c.ttl < now - e.timestamp →
          (c.get now ua).1 = none
            ∧ mapHasKey (c.get now ua).2.cache ua = false)
    ∧ (∀ (c : BotDetectionCache) (now : Nat) (ua : String) (e : CacheEntry),
        mapFind c.cache ua = some e → now - e.timestamp ≤ c.ttl →
          (c.get now ua).1 = some e.result) := by
  constructor
  · intro c now ua e hf hex
    rw [get_of_expired hf hex]
    exact ⟨rfl, mapHasKey_mapDelete_self⟩
  · intro c now ua e hf hfr
    rw [get_of_fresh hf hfr]

/-- Witness for C8: in a TTL-5 cache with an entry inserted at time 0, a read at
time 6 misses and deletes the entry, while a read at time 5 still returns it. -/
theorem c8_ttl_expiry_witness :
    ((expiredCache.get 6 "k").1 = none
      ∧ mapHasKey (expiredCache.get 6 "k").2.cache "k" = false)
    ∧ (expiredCache.get 5 "k").1 = some sampleResult := by
  refine ⟨c8_ttl_expiry.1 expiredCache 6 "k" ⟨sampleResult, 0⟩ (by decide) (by decide), ?_⟩
  exact c8_ttl_expiry.2 expiredCache 5 "k" ⟨sampleResult, 0⟩ (by decide) (by decide)

/-! ### Claim C10 -/

/-- C10: only the empty string (or absent header) takes the fast path: any other
user agent — in particular one consisting solely of whitespace — is classified,
a cache entry is created for it (on a miss with the cache enabled), and the
configured callbacks run for it. -/
theorem c10_whitespace_not_fast_path (cfg : MwConfig) (clf : Classifier)
    (c : BotDetectionCache) (now : Nat) (ua : String)
    (hua : ua ≠ "") (hen : cfg.cacheEnabled = true)
    (hmiss : mapFind c.cache ua = none) :
    (middleware cfg clf c now ua).classifierCalls = 1
      ∧ (middleware cfg clf c now ua).published = detectBot clf ua
      ∧ mapFind (middleware cfg clf c now ua).cache.cache ua
          = some ⟨detectBot clf ua, now⟩
      ∧ (middleware cfg clf c now ua).events
          = callbackEvents cfg (detectBot clf ua) ++ [Event.next] := by
  have hget := get_of_find_none (t := now) hmiss
  rw [middleware_miss hen hua hget]
  refine ⟨rfl, rfl, ?_, rfl⟩
  rw [set_cache_eq]
  exact mapFind_mapSet_self

/-- Witness for C10: the all-whitespace user agent `" "` is treated as non-empty:
the classifier runs, a cache entry keyed `" "` is created, and the callback events
fire. -/
theorem c10_whitespace_witness :
    (middleware sampleCfg trivialClf ⟨[], 1000, 3600000⟩ 0 " ").classifierCalls = 1
      ∧ (middleware sampleCfg trivialClf ⟨[], 1000, 3600000⟩ 0 " ").published
          = detectBot trivialClf " "
      ∧ mapFind (middleware sampleCfg trivialClf ⟨[], 1000, 3600000⟩ 0 " ").cache.cache " "
          = some ⟨detectBot trivialClf " ", 0⟩
      ∧ (middleware sampleCfg trivialClf ⟨[], 1000, 3600000⟩ 0 " ").events
          = callbackEvents sampleCfg (detectBot trivialClf " ") ++ [Event.next] :=
  c10_whitespace_not_fast_path sampleCfg trivialClf ⟨[], 1000, 3600000⟩ 0 " "
    (by decide) rfl rfl

/-! ### Claim C5 -/

/-- C5: under the spec's contract for the external classifier (the boolean agrees
with the match list and the primary match is its first element — `Coherent`), and
with every already-cached result satisfying the invariant, every result the
middleware publishes or leaves in the cache satisfies: `isBot` iff `botPatterns`
non-empty, `botName` present iff `isBot`, and `botName` is the first element of
`botPatterns`. -/
theorem c5_result_invariant (cfg : MwConfig) (clf : Classifier) (c : BotDetectionCache)
    (now : Nat) (ua : String) (hco : Coherent clf)
    (hc : ∀ p ∈ c.cache, ResultInv p.2.result) :
    ResultInv (middleware cfg clf c now ua).published
      ∧ ∀ p ∈ (middleware cfg clf c now ua).cache.cache, ResultInv p.2.result := by
  by_cases hua : ua = ""
  · subst hua
    rw [middleware_empty]
    exact ⟨emptyUAResult_inv, hc⟩
  · by_cases hen : cfg.cacheEnabled = true
    · rcases hget : BotDetectionCache.get c now ua with ⟨o, c1⟩
      have hc1 : ∀ p ∈ c1.cache, ResultInv p.2.result := by
        intro p hp
        have hp' : p ∈ (c.get now ua).2.cache := by rw [hget]; exact hp
        exact hc p (mem_get_snd hp')
      cases o with
      | some r =>
        rw [middleware_hit hen hua hget]
        obtain ⟨e, hf, _, hre, _⟩ := get_hit_decomp hget
        refine ⟨?_, hc1⟩
        rw [hre]
        exact hc _ (mapFind_mem hf)
      | none =>
        rw [middleware_miss hen hua hget]
        refine ⟨detectBot_inv hco ua, ?_⟩
        intro p hp
        rw [set_cache_eq] at hp
        rcases mem_mapSet hp with h1 | h1
        · exact hc1 p (mem_evictIfFull h1)
        · rw [h1]
          exact detectBot_inv hco ua
    · rw [middleware_nocache (Bool.not_eq_true _ |>.mp hen) hua]
      exact ⟨detectBot_inv hco ua, hc⟩

/-- Witness for C5: with the (coherent) never-matching classifier and an empty
cache, the published result satisfies the invariant. -/
theorem c5_result_invariant_witness :
    ResultInv (middleware sampleCfg trivialClf ⟨[], 2, 10⟩ 0 "x").published :=
  (c5_result_invariant sampleCfg trivialClf ⟨[], 2, 10⟩ 0 "x"
    (fun _ => by simp [trivialClf]) (fun p hp => by simp at hp)).1

/-! ### Claim C7 -/

theorem runRequests_disabled {cfg : MwConfig} {clf : Classifier}
    (hen : cfg.cacheEnabled = false) :
    ∀ (reqs : List (Nat × String)) (c : BotDetectionCache),
      runRequests cfg clf c reqs
        = reqs.map (fun q => if q.2 = "" then emptyUAResult else detectBot clf q.2) := by
  intro reqs
  induction reqs with
  | nil => intro c; rfl
  | cons q rest ih =>
    intro c
    simp only [runRequests, List.map_cons]
    by_cases hua : q.2 = ""
    · rw [hua, middleware_empty, if_pos rfl]
      exact congrArg _ (ih _)
    · rw [middleware_nocache hen hua, if_neg hua]
      exact congrArg _ (ih _)

/-- C7: the cache is semantically transparent.  (1) For every request sequence,
the results published by a fresh middleware with the cache enabled (any capacity
and TTL) coincide with those published with the cache disabled (from any cache
state, which a disabled middleware never reads).  (2) Handling the same non-empty
input twice in a row (same simulated clock) publishes identical results, and the
classifier is not invoked on the second, cache-hit, call. -/
theorem c7_cache_transparent :
    (∀ (clf : Classifier) (cfg cfgOff : MwConfig) (N T : Nat) (cOff : BotDetectionCache)
        (reqs : List (Nat × String)),
        cfg.cacheEnabled = true → cfgOff.cacheEnabled = false →
        runRequests cfg clf ⟨[], N, T⟩ reqs = runRequests cfgOff clf cOff reqs)
    ∧ (∀ (cfg : MwConfig) (clf : Classifier) (c : BotDetectionCache) (now : Nat)
        (ua : String), cfg.cacheEnabled = true → ua ≠ "" →
        (middleware cfg clf (middleware cfg clf c now ua).cache now ua).published
            = (middleware cfg clf c now ua).published
          ∧ (middleware cfg clf (middleware cfg clf c now ua).cache now ua).classifierCalls
              = 0) := by
  constructor
  · intro clf cfg cfgOff N T cOff reqs _ henOff
    rw [runRequests_eq_of_faithful reqs ⟨[], N, T⟩ cacheFaithful_nil,
      runRequests_disabled henOff reqs cOff]
  · intro cfg clf c now ua hen hua
    rcases hget : BotDetectionCache.get c now ua with ⟨o, c1⟩
    cases o with
    | some r =>
      rw [middleware_hit hen hua hget]
      obtain ⟨e, _, hex, hre, hc1⟩ := get_hit_decomp hget
      have hfind1 : mapFind c1.cache ua = some e := by
        rw [hc1]
        rw [mapFind_append_right_of_not_has mapHasKey_mapDelete_self]
        exact mapFind_singleton_self
      have httl1 : now - e.timestamp ≤ c1.ttl := by rw [hc1]; exact hex
      have hget2 := get_of_fresh hfind1 httl1
      rw [middleware_hit hen hua hget2]
      exact ⟨hre.symm, rfl⟩
    | none =>
      rw [middleware_miss hen hua hget]
      have hfind2 : mapFind (c1.set now ua (detectBot clf ua)).cache ua
          = some ⟨detectBot clf ua, now⟩ := by
        rw [set_cache_eq]
        exact mapFind_mapSet_self
      have hget2 := get_of_fresh (t := now) hfind2
        (by show now - now ≤ (c1.set now ua (detectBot clf ua)).ttl; omega)
      rw [middleware_hit hen hua hget2]
      exact ⟨rfl, rfl⟩

/-- Witness for C7: a concrete two-request run with the cache on equals the run
with the cache off, and the second identical request does not invoke the
classifier. -/
theorem c7_cache_transparent_witness :
    runRequests sampleCfg trivialClf ⟨[], 3, 100⟩ [(0, "x"), (0, "x")]
        = runRequests sampleCfgNoCache trivialClf ⟨[], 3, 100⟩ [(0, "x"), (0, "x")]
      ∧ (middleware sampleCfg trivialClf
            (middleware sampleCfg trivialClf ⟨[], 3, 100⟩ 0 "x").cache 0 "x").classifierCalls
          = 0 :=
  ⟨c7_cache_transparent.1 trivialClf sampleCfg sampleCfgNoCache 3 100 ⟨[], 3, 100⟩
      [(0, "x"), (0, "x")] rfl rfl,
   (c7_cache_transparent.2 sampleCfg trivialClf ⟨[], 3, 100⟩ 0 "x" rfl (by decide)).2⟩

/-! ### Additional helper lemmas for the LRU-order and capacity claims -/

theorem mapHasKey_of_find {m : CacheMap} {k : String} {e : CacheEntry}
    (h : mapFind m k = some e) : mapHasKey m k = true :=
  mapHasKey_eq_true_iff.mpr (List.mem_map_of_mem Prod.fst (mapFind_mem h))

theorem mem_mapDelete_of_ne {m : CacheMap} {k : String} {p : String × CacheEntry}
    (hp : p ∈ m) (hne : p.1 ≠ k) : p ∈ mapDelete m k := by
  unfold mapDelete
  rw [List.mem_filter]
  exact ⟨hp, by simp [hne]⟩

theorem mapDelete_cons_of_ne {p : String × CacheEntry} {t : CacheMap} {k : String}
    (h : p.1 ≠ k) : mapDelete (p :: t) k = p :: mapDelete t k := by
  unfold mapDelete
  rw [List.filter_cons, if_pos (by simp [h])]

theorem mapDelete_cons_of_eq {p : String × CacheEntry} {t : CacheMap} {k : String}
    (h : p.1 = k) (hnot : mapHasKey t k = false) : mapDelete (p :: t) k = t := by
  unfold mapDelete
  rw [List.filter_cons, if_neg (by simp [h])]
  exact mapDelete_eq_self_of_not_has hnot

theorem length_mapDelete_of_find {m : CacheMap} {ua : String} {e : CacheEntry}
    (hnd : (m.map Prod.fst).Nodup) (hf : mapFind m ua = some e) :
    (mapDelete m ua).length + 1 = m.length := by
  induction m with
  | nil => simp [mapFind] at hf
  | cons p t ih =>
    rw [List.map_cons, List.nodup_cons] at hnd
    by_cases hk : p.1 = ua
    · have hnot : mapHasKey t ua = false := by
        rw [mapHasKey_eq_false_iff]
        intro q hq hqk
        exact hnd.1 (hk ▸ hqk ▸ List.mem_map_of_mem Prod.fst hq)
      rw [mapDelete_cons_of_eq hk hnot, List.length_cons]
    · have hf' : mapFind t ua = some e := by rwa [mapFind_cons_of_ne hk] at hf
      rw [mapDelete_cons_of_ne hk, List.length_cons, List.length_cons]
      exact congrArg Nat.succ (ih hnd.2 hf')

theorem mapHasKey_mapSet_of_mem {m : CacheMap} {k ua : String} {v : CacheEntry}
    (hua : mapHasKey m ua = true) : mapHasKey (mapSet m k v) ua = true := by
  by_cases h : mapHasKey m k = true
  · rw [mapHasKey_eq_true_iff, keys_mapSet_of_has h, ← mapHasKey_eq_true_iff]
    exact hua
  · rw [mapSet_of_not_has ((Bool.not_eq_true _).mp h)]
    rw [mapHasKey_eq_true_iff] at hua ⊢
    rw [List.map_append]
    exact List.mem_append_left _ hua

theorem insertSeq_cons {now : Nat} {kr : String × BotDetectionResult}
    {rest : List (String × BotDetectionResult)} {c : BotDetectionCache} :
    insertSeq now (kr :: rest) c = insertSeq now rest (c.set now kr.1 kr.2) := rfl

/-- Inserting a run of keys, all distinct and fresh, into a cache with `maxSize ≥ 1`
and key-distinct contents: the resulting key sequence is the tail of the combined
key sequence, i.e. everything but the `total − maxSize` oldest keys. -/
theorem insertSeq_keys :
    ∀ (rs : List (String × BotDetectionResult)) (c : BotDetectionCache) (now : Nat),
      1 ≤ c.maxSize → c.cache.length ≤ c.maxSize →
      (c.cache.map Prod.fst ++ rs.map Prod.fst).Nodup →
      (insertSeq now rs c).cache.map Prod.fst
        = (c.cache.map Prod.fst ++ rs.map Prod.fst).drop
            (c.cache.length + rs.length - c.maxSize) := by
  intro rs
  induction rs with
  | nil =>
    intro c now h1 h2 _
    simp only [insertSeq, List.foldl_nil, List.map_nil, List.append_nil, List.length_nil,
      Nat.add_zero]
    have hz : c.cache.length - c.maxSize = 0 := by omega
    rw [hz, List.drop_zero]
  | cons kr rest ih =>
    intro c now h1 h2 hnd
    have hdisj := (List.nodup_append.mp hnd).2.2
    have hkfresh : mapHasKey c.cache kr.1 = false := by
      rw [mapHasKey_eq_false_iff]
      intro p hp hpk
      exact hdisj (hpk ▸ List.mem_map_of_mem Prod.fst hp)
        (by rw [List.map_cons]; exact List.mem_cons_self _ _)
    rw [insertSeq_cons]
    by_cases hful : c.maxSize ≤ c.cache.length
    · -- at capacity: the head is evicted, the new key appended
      have hlen : c.cache.length = c.maxSize := le_antisymm h2 hful
      obtain ⟨hd, tl, hcons⟩ : ∃ hd tl, c.cache = hd :: tl := by
        cases hc : c.cache with
        | nil => rw [hc] at hlen; simp at hlen; omega
        | cons a b => exact ⟨a, b, rfl⟩
      have hndc : (c.cache.map Prod.fst).Nodup := (List.nodup_append.mp hnd).1
      have hnotmem : hd.1 ∉ tl.map Prod.fst := by
        rw [hcons, List.map_cons, List.nodup_cons] at hndc
        exact hndc.1
      have hceta : c = ⟨hd :: tl, c.maxSize, c.ttl⟩ := by rw [← hcons]
      have hlen' : c.maxSize ≤ tl.length + 1 := by
        rw [hcons, List.length_cons] at hful
        exact hful
      have hset : (c.set now kr.1 kr.2).cache = tl ++ [(kr.1, ⟨kr.2, now⟩)] := by
        rw [hceta]
        exact set_cache_at_capacity_fresh hlen' hnotmem (by rw [← hcons]; exact hkfresh)
      have hkeys : (c.set now kr.1 kr.2).cache.map Prod.fst
          = tl.map Prod.fst ++ [kr.1] := by rw [hset]; simp
      have hlen2 : (c.set now kr.1 kr.2).cache.length = c.cache.length := by
        rw [hset, hcons]
        simp
      have hnd2 : ((c.set now kr.1 kr.2).cache.map Prod.fst
          ++ rest.map Prod.fst).Nodup := by
        rw [hkeys, List.append_assoc, List.singleton_append]
        have hnd' := hnd
        rw [hcons, List.map_cons, List.map_cons, List.cons_append, List.nodup_cons] at hnd'
        exact hnd'.2
      have hih := ih (c.set now kr.1 kr.2) now (by rw [set_maxSize]; exact h1)
        (by rw [set_maxSize, hlen2]; exact h2) hnd2
      rw [hih, hkeys, set_maxSize, hlen2]
      have hkc : c.cache.map Prod.fst = hd.1 :: tl.map Prod.fst := by
        rw [hcons, List.map_cons]
      rw [hkc]
      simp only [List.map_cons, List.append_assoc, List.singleton_append, List.cons_append]
      have hidx2 : c.cache.length + (kr :: rest).length - c.maxSize
          = (c.cache.length + rest.length - c.maxSize) + 1 := by
        simp only [List.length_cons]
        omega
      rw [hidx2, List.drop_succ_cons, List.nil_append]
    · -- below capacity: the new key is appended, nothing evicted
      have hlt : c.cache.length < c.maxSize := by omega
      have hset : (c.set now kr.1 kr.2).cache = c.cache ++ [(kr.1, ⟨kr.2, now⟩)] :=
        set_cache_below_capacity_fresh hlt hkfresh
      have hkeys : (c.set now kr.1 kr.2).cache.map Prod.fst
          = c.cache.map Prod.fst ++ [kr.1] := by rw [hset]; simp
      have hnd2 : ((c.set now kr.1 kr.2).cache.map Prod.fst
          ++ rest.map Prod.fst).Nodup := by
        rw [hkeys, List.append_assoc, List.singleton_append]
        exact hnd
      have hih := ih (c.set now kr.1 kr.2) now (by rw [set_maxSize]; exact h1)
        (by rw [set_maxSize, hset, List.length_append, List.length_singleton]; omega) hnd2
      rw [hih, hkeys, set_maxSize]
      simp only [List.map_cons, List.append_assoc, List.singleton_append]
      have hidx : (c.set now kr.1 kr.2).cache.length + rest.length - c.maxSize
          = c.cache.length + (kr :: rest).length - c.maxSize := by
        rw [hset, List.length_append, List.length_singleton, List.length_cons]
        omega
      rw [hidx]

/-! ### Claim C1 -/

/-- Counterexample for C1: `fullTwoCache` is at capacity (2 entries) and `"k2"` is
already present, yet `set("k2", …)` still evicts the oldest entry `"k1"` — the size
drops from 2 to 1, contradicting "no other entry is removed (the size is
unchanged)". -/
theorem c1_counterexample :
    fullTwoCache.size = 2
      ∧ mapHasKey fullTwoCache.cache "k2" = true
      ∧ (fullTwoCache.set 5 "k2" sampleResult).size = 1 := by
  decide

/-- C1 (amended): (1) on a full cache, `put` of a fresh key evicts exactly the
single oldest entry and appends the new one; (2) inserting `N+1` distinct keys
into an empty capacity-`N` cache (`N ≥ 1`) leaves exactly `N` entries, the
first-inserted key evicted (the surviving key sequence is the tail); (3) `put` of
an already-present key below capacity replaces its result and refreshes its
timestamp **in place** — the key order (recency) and size are unchanged, so the
recency is *not* reset to most-recently-used; (4) `put` of an already-present key
at capacity still evicts the oldest entry, so when the key is not itself the
oldest the size shrinks by one. -/
theorem c1_put_semantics :
    (∀ (c : BotDetectionCache) (now : Nat) (k : String) (r : BotDetectionResult)
        (hd : String × CacheEntry) (tl : CacheMap),
        c.cache = hd :: tl → c.maxSize ≤ c.cache.length → KeysNodup c →
        mapHasKey c.cache k = false →
        (c.set now k r).cache = tl ++ [(k, ⟨r, now⟩)])
    ∧ (∀ (N T now : Nat) (rs : List (String × BotDetectionResult)),
        1 ≤ N → rs.length = N + 1 → (rs.map Prod.fst).Nodup →
        (insertSeq now rs ⟨[], N, T⟩).size = N
          ∧ (insertSeq now rs ⟨[], N, T⟩).cache.map Prod.fst
              = (rs.map Prod.fst).tail)
    ∧ (∀ (c : BotDetectionCache) (now : Nat) (k : String) (r : BotDetectionResult)
        (e : CacheEntry), c.cache.length < c.maxSize → mapFind c.cache k = some e →
        (c.set now k r).cache.map Prod.fst = c.cache.map Prod.fst
          ∧ (c.set now k r).size = c.size
          ∧ mapFind (c.set now k r).cache k = some ⟨r, now⟩)
    ∧ (∀ (c : BotDetectionCache) (now : Nat) (k : String) (r : BotDetectionResult)
        (e : CacheEntry) (hd : String × CacheEntry) (tl : CacheMap),
        c.cache = hd :: tl → c.maxSize ≤ c.cache.length → KeysNodup c →
        mapFind c.cache k = some e → hd.1 ≠ k →
        (c.set now k r).cache.map Prod.fst = tl.map Prod.fst
          ∧ (c.set now k r).size + 1 = c.size) := by
  refine ⟨?_, ?_, ?_, ?_⟩
  · intro c now k r hd tl hcons hful hnd hk
    have hceta : c = ⟨hd :: tl, c.maxSize, c.ttl⟩ := by rw [← hcons]
    have hnotmem : hd.1 ∉ tl.map Prod.fst := by
      unfold KeysNodup at hnd
      rw [hcons, List.map_cons, List.nodup_cons] at hnd
      exact hnd.1
    have hlen' : c.maxSize ≤ tl.length + 1 := by
      rw [hcons, List.length_cons] at hful
      exact hful
    rw [hceta]
    exact set_cache_at_capacity_fresh hlen' hnotmem (by rw [← hcons]; exact hk)
  · intro N T now rs hN hlen hnd
    have hkeys := insertSeq_keys rs ⟨[], N, T⟩ now hN (by simp) (by simpa using hnd)
    have hkeys' : (insertSeq now rs ⟨[], N, T⟩).cache.map Prod.fst
        = (rs.map Prod.fst).tail := by
      rw [hkeys]
      simp only [List.map_nil, List.nil_append, List.length_nil, Nat.zero_add, hlen]
      have hidx : N + 1 - N = 1 := by omega
      rw [hidx, List.drop_one]
    refine ⟨?_, hkeys'⟩
    show (insertSeq now rs ⟨[], N, T⟩).cache.length = N
    have hcl := congrArg List.length hkeys'
    rw [List.length_map, List.length_tail, List.length_map, hlen] at hcl
    rw [hcl]
    omega
  · intro c now k r e hlt hf
    have hk : mapHasKey c.cache k = true := mapHasKey_of_find hf
    have hcache : (c.set now k r).cache = mapSet c.cache k ⟨r, now⟩ := by
      rw [set_cache_eq, evictIfFull_below hlt]
    refine ⟨?_, ?_, ?_⟩
    · rw [hcache]
      exact keys_mapSet_of_has hk
    · show (c.set now k r).cache.length = c.cache.length
      rw [hcache]
      exact length_mapSet_of_has hk
    · rw [hcache]
      exact mapFind_mapSet_self
  · intro c now k r e hd tl hcons hful hnd hf hne
    have hceta : c = ⟨hd :: tl, c.maxSize, c.ttl⟩ := by rw [← hcons]
    have hnotmem : hd.1 ∉ tl.map Prod.fst := by
      unfold KeysNodup at hnd
      rw [hcons, List.map_cons, List.nodup_cons] at hnd
      exact hnd.1
    have hevict : evictIfFull c = tl := by
      rw [hceta, evictIfFull_at_capacity
        (by rw [hcons, List.length_cons] at hful; exact hful)]
      exact mapDelete_cons_head hnotmem
    have hktl : mapHasKey tl k = true := by
      have hmem := mapFind_mem hf
      rw [hcons] at hmem
      rcases List.mem_cons.mp hmem with h1 | h1
      · exact absurd (congrArg Prod.fst h1.symm) hne
      · exact mapHasKey_eq_true_iff.mpr (List.mem_map_of_mem Prod.fst h1)
    have hcache : (c.set now k r).cache = mapSet tl k ⟨r, now⟩ := by
      rw [set_cache_eq, hevict]
    constructor
    · rw [hcache]
      exact keys_mapSet_of_has hktl
    · show (c.set now k r).cache.length + 1 = c.cache.length
      rw [hcache, length_mapSet_of_has hktl, hcons, List.length_cons]

/-- Witness for C1 (amended), all four parts at concrete inputs: eviction of the
oldest on a full cache; three distinct keys through a capacity-1 cache keep only
the last; in-place replacement below capacity; eviction of the oldest even when
the written key is already present. -/
theorem c1_put_semantics_witness :
    (fullTwoCache.set 5 "k3" sampleResult).cache
        = [("k2", ⟨sampleResult, 0⟩)] ++ [("k3", ⟨sampleResult, 5⟩)]
      ∧ ((insertSeq 0 [("a", sampleResult), ("b", sampleResult)] ⟨[], 1, 100⟩).size = 1
          ∧ (insertSeq 0 [("a", sampleResult), ("b", sampleResult)]
                ⟨[], 1, 100⟩).cache.map Prod.fst
              = ([("a", sampleResult), ("b", sampleResult)].map Prod.fst).tail)
      ∧ ((belowCapCache.set 7 "k1" sampleResult).cache.map Prod.fst
            = belowCapCache.cache.map Prod.fst
          ∧ (belowCapCache.set 7 "k1" sampleResult).size = belowCapCache.size
          ∧ mapFind (belowCapCache.set 7 "k1" sampleResult).cache "k1"
              = some ⟨sampleResult, 7⟩)
      ∧ ((fullTwoCache.set 9 "k2" sampleResult).cache.map Prod.fst
            = ([("k2", ⟨sampleResult, 0⟩)] : CacheMap).map Prod.fst
          ∧ (fullTwoCache.set 9 "k2" sampleResult).size + 1 = fullTwoCache.size) := by
  refine ⟨?_, ?_, ?_, ?_⟩
  · exact c1_put_semantics.1 fullTwoCache 5 "k3" sampleResult ("k1", ⟨sampleResult, 0⟩)
      [("k2", ⟨sampleResult, 0⟩)] rfl (by decide) (by unfold KeysNodup; decide) (by decide)
  · exact c1_put_semantics.2.1 1 100 0 [("a", sampleResult), ("b", sampleResult)]
      (by decide) (by decide) (by decide)
  · exact c1_put_semantics.2.2.1 belowCapCache 7 "k1" sampleResult ⟨sampleResult, 0⟩
      (by decide) (by decide)
  · exact c1_put_semantics.2.2.2 fullTwoCache 9 "k2" sampleResult ⟨sampleResult, 0⟩
      ("k1", ⟨sampleResult, 0⟩) [("k2", ⟨sampleResult, 0⟩)] rfl (by decide)
      (by unfold KeysNodup; decide) (by decide) (by decide)

/-! ### Claim C3 -/

/-- Counterexample for C3: a cache constructed with capacity 0 does *not* hold
nothing — a single `put` leaves size 1, and a `get` of that key returns the stored
result (the eviction branch finds no first key in an empty map and inserts
anyway). -/
theorem c3_counterexample :
    ((⟨[], 0, 1000⟩ : BotDetectionCache).set 0 "k" sampleResult).size = 1
      ∧ (((⟨[], 0, 1000⟩ : BotDetectionCache).set 0 "k" sampleResult).get 0 "k").1
          = some sampleResult := by
  decide

theorem set_maxSize_zero_eq_one {l : CacheMap} {T now : Nat} {k : String}
    {r : BotDetectionResult} :
    (BotDetectionCache.set ⟨l, 0, T⟩ now k r).cache
      = (BotDetectionCache.set ⟨l, 1, T⟩ now k r).cache := by
  cases l with
  | nil =>
    rw [set_cache_eq, set_cache_eq, evictIfFull_nil, evictIfFull_below (by simp)]
  | cons hd tl =>
    rw [set_cache_eq, set_cache_eq, evictIfFull_at_capacity (by omega),
      evictIfFull_at_capacity (by omega)]

theorem set_maxSize_zero_length {l : CacheMap} {T now : Nat} {k : String}
    {r : BotDetectionResult} (h : l.length ≤ 1) :
    (BotDetectionCache.set ⟨l, 0, T⟩ now k r).cache.length ≤ 1 := by
  cases l with
  | nil =>
    rw [set_cache_eq, evictIfFull_nil, mapSet_of_not_has mapHasKey_nil]
    simp
  | cons hd tl =>
    have htl : tl = [] := by
      cases tl with
      | nil => rfl
      | cons a b => simp at h
    subst htl
    rw [set_cache_eq, evictIfFull_at_capacity (by omega),
      mapDelete_cons_of_eq (p := hd) (t := ([] : CacheMap)) rfl mapHasKey_nil,
      mapSet_of_not_has mapHasKey_nil]
    simp

theorem insertSeq_maxSize_zero :
    ∀ (rs : List (String × BotDetectionResult)) (l : CacheMap) (T now : Nat),
      l.length ≤ 1 →
      (insertSeq now rs ⟨l, 0, T⟩).cache.length ≤ 1
        ∧ (insertSeq now rs ⟨l, 0, T⟩).cache = (insertSeq now rs ⟨l, 1, T⟩).cache := by
  intro rs
  induction rs with
  | nil => intro l T now h; exact ⟨h, rfl⟩
  | cons kr rest ih =>
    intro l T now h
    rw [insertSeq_cons, insertSeq_cons]
    have h0 : BotDetectionCache.set ⟨l, 0, T⟩ now kr.1 kr.2
        = ⟨(BotDetectionCache.set ⟨l, 0, T⟩ now kr.1 kr.2).cache, 0, T⟩ := rfl
    have h1 : BotDetectionCache.set ⟨l, 1, T⟩ now kr.1 kr.2
        = ⟨(BotDetectionCache.set ⟨l, 1, T⟩ now kr.1 kr.2).cache, 1, T⟩ := rfl
    rw [h0, h1, ← set_maxSize_zero_eq_one]
    exact ih _ T now (set_maxSize_zero_length h)

/-- C3 (amended): every cache operation of the embedding is a total function (no
input makes it fail or diverge), but a capacity-0 cache does not "hold nothing":
it behaves exactly like a capacity-1 cache — each `put` first evicts the existing
entry, if any, then inserts — so after any sequence of `put` operations its size is
at most 1, and a `get` of the surviving key within its TTL succeeds. -/
theorem c3_capacity_zero (T now : Nat) (rs : List (String × BotDetectionResult)) :
    (insertSeq now rs ⟨[], 0, T⟩).size ≤ 1
      ∧ (insertSeq now rs ⟨[], 0, T⟩).cache = (insertSeq now rs ⟨[], 1, T⟩).cache :=
  insertSeq_maxSize_zero rs [] T now (by simp)

/-! ### Claim C9 -/

/-- Counterexample for C9: on a full capacity-1 cache a successful `get("k")`
followed by a `put` of the fresh key `"k2"` evicts `"k"` itself — there is no
"entry other than k" to evict, so the parenthetical consequence of the claim fails
at capacity 1. -/
theorem c9_counterexample :
    (oneCache.get 0 "k").1 = some sampleResult
      ∧ mapHasKey ((oneCache.get 0 "k").2).cache "k" = true
      ∧ mapHasKey (((oneCache.get 0 "k").2).set 0 "k2" sampleResult).cache "k2" = true
      ∧ mapHasKey (((oneCache.get 0 "k").2).set 0 "k2" sampleResult).cache "k" = false := by
  decide

/-- C9 (amended): (1) a successful `get` promotes the looked-up entry to the
most-recently-used (last) position; (2) eviction always removes exactly the
single oldest-by-recency (first) entry, never an arbitrary one; (3) consequently,
after `get(k)` on a full cache holding **at least two** entries, a `put` of a
fresh key evicts an entry other than `k` (with only one entry, `k` itself is
evicted, and a `put` of an already-present key does not update its recency). -/
theorem c9_recency_order :
    (∀ (c : BotDetectionCache) (now : Nat) (ua : String) (e : CacheEntry),
        mapFind c.cache ua = some e → now - e.timestamp ≤ c.ttl →
        (c.get now ua).2.cache = mapDelete c.cache ua ++ [(ua, e)]
          ∧ (c.get now ua).2.cache.getLast? = some (ua, e))
    ∧ (∀ (c : BotDetectionCache) (now : Nat) (k : String) (r : BotDetectionResult)
        (hd : String × CacheEntry) (tl : CacheMap),
        c.cache = hd :: tl → c.maxSize ≤ c.cache.length → KeysNodup c →
        mapHasKey c.cache k = false →
        (c.set now k r).cache = tl ++ [(k, ⟨r, now⟩)])
    ∧ (∀ (c : BotDetectionCache) (now : Nat) (ua k : String) (e : CacheEntry)
        (r : BotDetectionResult),
        KeysNodup c → c.maxSize ≤ c.cache.length → 2 ≤ c.cache.length →
        mapFind c.cache ua = some e → now - e.timestamp ≤ c.ttl →
        mapHasKey c.cache k = false → k ≠ ua →
        mapHasKey (((c.get now ua).2).set now k r).cache ua = true) := by
  refine ⟨?_, ?_, ?_⟩
  · intro c now ua e hf hfr
    rw [get_of_fresh hf hfr]
    exact ⟨rfl, List.getLast?_concat _⟩
  · intro c now k r hd tl hcons hful hnd hk
    have hceta : c = ⟨hd :: tl, c.maxSize, c.ttl⟩ := by rw [← hcons]
    have hnotmem : hd.1 ∉ tl.map Prod.fst := by
      unfold KeysNodup at hnd
      rw [hcons, List.map_cons, List.nodup_cons] at hnd
      exact hnd.1
    have hlen' : c.maxSize ≤ tl.length + 1 := by
      rw [hcons, List.length_cons] at hful
      exact hful
    rw [hceta]
    exact set_cache_at_capacity_fresh hlen' hnotmem (by rw [← hcons]; exact hk)
  · intro c now ua k e r hnd hful hlen2 hf hfr hk hne
    rw [get_of_fresh hf hfr]
    show mapHasKey
      ((BotDetectionCache.set ⟨mapDelete c.cache ua ++ [(ua, e)], c.maxSize, c.ttl⟩
        now k r)).cache ua = true
    have hdellen : (mapDelete c.cache ua).length + 1 = c.cache.length :=
      length_mapDelete_of_find hnd hf
    obtain ⟨d0, dtl, hdcons⟩ : ∃ d0 dtl, mapDelete c.cache ua = d0 :: dtl := by
      cases hdc : mapDelete c.cache ua with
      | nil => rw [hdc] at hdellen; simp at hdellen; omega
      | cons a b => exact ⟨a, b, rfl⟩
    have hd0mem : d0 ∈ mapDelete c.cache ua := by
      rw [hdcons]
      exact List.mem_cons_self _ _
    have hd0ne : d0.1 ≠ ua := (mem_mapDelete hd0mem).2
    have hcap : c.maxSize ≤ (dtl ++ [(ua, e)]).length + 1 := by
      rw [List.length_append, List.length_singleton]
      rw [hdcons, List.length_cons] at hdellen
      omega
    rw [hdcons, List.cons_append, set_cache_eq, evictIfFull_at_capacity hcap]
    apply mapHasKey_mapSet_of_mem
    apply mapHasKey_eq_true_iff.mpr
    have hmem : (ua, e) ∈ mapDelete (d0 :: (dtl ++ [(ua, e)])) d0.1 := by
      apply mem_mapDelete_of_ne
      · exact List.mem_cons_of_mem d0
          (List.mem_append_right dtl (List.mem_singleton.mpr rfl))
      · exact fun hcontra => hd0ne hcontra.symm
    exact List.mem_map_of_mem Prod.fst hmem

/-- Witness for C9 (amended): concrete instances of promotion on `get`, eviction
of the oldest on `put`, and survival of a just-read key on a two-entry cache. -/
theorem c9_recency_order_witness :
    ((oneCache.get 0 "k").2.cache
        = mapDelete oneCache.cache "k" ++ [("k", ⟨sampleResult, 0⟩)]
      ∧ (oneCache.get 0 "k").2.cache.getLast? = some ("k", ⟨sampleResult, 0⟩))
      ∧ (fullTwoCache.set 11 "k3" sampleResult).cache
          = [("k2", ⟨sampleResult, 0⟩)] ++ [("k3", ⟨sampleResult, 11⟩)]
      ∧ mapHasKey (((fullTwoCache.get 0 "k1").2).set 0 "k3" sampleResult).cache "k1"
          = true := by
  refine ⟨?_, ?_, ?_⟩
  · exact c9_recency_order.1 oneCache 0 "k" ⟨sampleResult, 0⟩ (by decide) (by decide)
  · exact c9_recency_order.2.1 fullTwoCache 11 "k3" sampleResult
      ("k1", ⟨sampleResult, 0⟩) [("k2", ⟨sampleResult, 0⟩)] rfl (by decide)
      (by unfold KeysNodup; decide) (by decide)
  · exact c9_recency_order.2.2 fullTwoCache 0 "k1" "k3" ⟨sampleResult, 0⟩ sampleResult
      (by unfold KeysNodup; decide) (by decide) (by decide) (by decide) (by decide)
      (by decide) (by decide)

/-! ### Claim C2 -/

/-- Counterexample for C2: with a 2049-character user agent, the published result
is truncated to 2048 characters, but the key stored in the cache is the **raw**,
untruncated 2049-character string — the orchestrator passes `userAgent`, not the
truncated form, to both `cache.get` and `cache.set`, so an unbounded key does
reach the cache. -/
theorem c2_counterexample :
    mapHasKey (middleware sampleCfg trivialClf ⟨[], 1000, 3600000⟩ 0 longUA).cache.cache
        longUA = true
      ∧ 2048 < longUA.length := by
  have hua : longUA ≠ "" := by decide
  have hget := get_of_find_none
    (c := ⟨[], 1000, 3600000⟩) (t := 0) (u := longUA) rfl
  rw [middleware_miss rfl hua hget]
  constructor
  · refine mapHasKey_of_find (e := ⟨detectBot trivialClf longUA, 0⟩) ?_
    rw [set_cache_eq]
    exact mapFind_mapSet_self
  · show 2048 < (List.replicate 2049 'a').length
    rw [List.length_replicate]
    omega

/-- C2 (amended): on a cache miss the classifier is applied to, and the published
result stores, the input truncated to at most 2048 characters; the cache key,
however, is the raw, untruncated user agent (it is *not* bounded by the
orchestrator before reaching the cache). -/
theorem c2_truncation (cfg : MwConfig) (clf : Classifier) (c : BotDetectionCache)
    (now : Nat) (ua : String) (hua : ua ≠ "") (hen : cfg.cacheEnabled = true)
    (hmiss : mapFind c.cache ua = none) :
    (middleware cfg clf c now ua).published.userAgent = sliceChars ua 2048
      ∧ (middleware cfg clf c now ua).published.userAgent.length ≤ 2048
      ∧ (middleware cfg clf c now ua).published.isBot = clf.isBotF (sliceChars ua 2048)
      ∧ (middleware cfg clf c now ua).published.botName = clf.matchF (sliceChars ua 2048)
      ∧ (middleware cfg clf c now ua).published.botPatterns
          = clf.matchesF (sliceChars ua 2048)
      ∧ mapFind (middleware cfg clf c now ua).cache.cache ua
          = some ⟨detectBot clf ua, now⟩ := by
  have hget := get_of_find_none (t := now) hmiss
  rw [middleware_miss hen hua hget]
  refine ⟨rfl, ?_, rfl, rfl, rfl, ?_⟩
  · show (sliceChars ua 2048).length ≤ 2048
    show (ua.data.take 2048).length ≤ 2048
    rw [List.length_take]
    omega
  · rw [set_cache_eq]
    exact mapFind_mapSet_self

/-- Witness for C2 (amended) at the concrete input `"abc"`. -/
theorem c2_truncation_witness :
    (middleware sampleCfg trivialClf ⟨[], 5, 100⟩ 3 "abc").published.userAgent
        = sliceChars "abc" 2048
      ∧ (middleware sampleCfg trivialClf ⟨[], 5, 100⟩ 3 "abc").published.userAgent.length
          ≤ 2048
      ∧ (middleware sampleCfg trivialClf ⟨[], 5, 100⟩ 3 "abc").published.isBot
          = trivialClf.isBotF (sliceChars "abc" 2048)
      ∧ (middleware sampleCfg trivialClf ⟨[], 5, 100⟩ 3 "abc").published.botName
          = trivialClf.matchF (sliceChars "abc" 2048)
      ∧ (middleware sampleCfg trivialClf ⟨[], 5, 100⟩ 3 "abc").published.botPatterns
          = trivialClf.matchesF (sliceChars "abc" 2048)
      ∧ mapFind (middleware sampleCfg trivialClf ⟨[], 5, 100⟩ 3 "abc").cache.cache "abc"
          = some ⟨detectBot trivialClf "abc", 3⟩ :=
  c2_truncation sampleCfg trivialClf ⟨[], 5, 100⟩ 3 "abc" (by decide) rfl rfl

end KoaIsBot
